import Mathlib

/-!
Verification of the Extractable Witness Encryption orchestration layer
(`src/we.rs` of mahmudsudo/keaki).

The layer is generic over an external KEM collaborator; we embed it as a
structure of two functions (encapsulate / decapsulate), parameterised over the
group types `G1`, `G2`, the scalar field `F` and the KEM error type `KErr`.
Bytes are `Nat`s reduced mod 256 where the Rust code holds `u8` values.
-/

namespace Keaki

/-- Modelled from the spec: the KEM module (`src/kem.rs`) is not part of the
given sources, so the keystream object it returns is modelled per §4.2 of the
spec as "the first N bytes of an effectively infinite pseudorandom sequence":
a function `Nat → Nat` whose `i`-th byte is `ks i % 256`.  `fill ks n` is the
embedding of filling an `n`-byte buffer from the stream (`key_stream.fill`). -/
def fill (ks : Nat → Nat) (n : Nat) : List Nat :=
  (List.range n).map (fun i => ks i % 256)

/-- The external KEM collaborator, abstracted by its two operations
(`encapsulate(commitment, point, value)` and `decapsulate(witness, key_ct)`),
exactly the boundary the orchestration layer uses. -/
structure KEM (G1 G2 F KErr : Type) where
  encapsulate : G1 → F → F → Except KErr (G2 × (Nat → Nat))
  decapsulate : G1 → G2 → Except KErr (Nat → Nat)

/-- The `WEError` enum from `we.rs`: a single wrapping error kind with one variant
carrying the underlying KEM error. -/
inductive WEError (KErr : Type) where
  | KEMError (e : KErr)
deriving DecidableEq

/-- Embedding of `impl From<KEMError> for WEError` from `we.rs`. -/
def WEError.from {KErr : Type} (e : KErr) : WEError KErr :=
  WEError.KEMError e

/-- The `WE<E>` struct of `we.rs`: owns a KEM instance. -/
structure WE (G1 G2 F KErr : Type) where
  kem : KEM G1 G2 F KErr

/-- Outcome of running a Rust function that may panic (out-of-bounds
indexing) besides returning `Result`. -/
inductive RunResult (ε α : Type) where
  | panicked
  | error (e : ε)
  | ok (a : α)
deriving DecidableEq

variable {G1 G2 F KErr : Type}

/-- Embedding of `WE::encrypt_single` from `we.rs`: encapsulate, fill a buffer of
`msg.len()` zero bytes from the keystream, XOR the message into it. -/
def WE.encrypt_single (we : WE G1 G2 F KErr) (com : G1) (point value : F)
    (msg : List Nat) : Except (WEError KErr) (G2 × List Nat) :=
  match we.kem.encapsulate com point value with
  | Except.error e => Except.error (WEError.KEMError e)
  | Except.ok (key_ct, key_stream) =>
      Except.ok (key_ct, List.zipWith Nat.xor (fill key_stream msg.length) msg)

/-- Embedding of `WE::decrypt_single` from `we.rs`: decapsulate, fill a buffer of
`msg_ct.len()` zero bytes from the keystream, XOR the ciphertext into it. -/
def WE.decrypt_single (we : WE G1 G2 F KErr) (proof : G1) (key_ct : G2)
    (msg_ct : List Nat) : Except (WEError KErr) (List Nat) :=
  match we.kem.decapsulate proof key_ct with
  | Except.error e => Except.error (WEError.KEMError e)
  | Except.ok key_stream =>
      Except.ok (List.zipWith Nat.xor (fill key_stream msg_ct.length) msg_ct)

/-- One iteration body of the loop in `WE::encrypt`: index `points[i]` and
`values[i]` (panicking when out of bounds, in that evaluation order), then
call `encrypt_single`, with `?` propagating the error. -/
def WE.encStep (we : WE G1 G2 F KErr) (com : G1) (points values : List F)
    (msg : List Nat) (i : Nat) : RunResult (WEError KErr) (G2 × List Nat) :=
  if h : i < points.length then
    if hv : i < values.length then
      match we.encrypt_single com (points.get ⟨i, h⟩) (values.get ⟨i, hv⟩) msg with
      | Except.error e => RunResult.error e
      | Except.ok kc => RunResult.ok kc
    else RunResult.panicked
  else RunResult.panicked

/-- The loop of `WE::encrypt` over a list of indices, with the accumulator
`cts` (the vector being pushed to). -/
def WE.encryptIdx (we : WE G1 G2 F KErr) (com : G1) (points values : List F)
    (msg : List Nat) :
    List Nat → List (G2 × List Nat) → RunResult (WEError KErr) (List (G2 × List Nat))
  | [], acc => RunResult.ok acc
  | i :: rest, acc =>
      match we.encStep com points values msg i with
      | RunResult.panicked => RunResult.panicked
      | RunResult.error e => RunResult.error e
      | RunResult.ok kc => we.encryptIdx com points values msg rest (acc ++ [kc])

/-- Embedding of `WE::encrypt` from `we.rs`: `for i in 0..points.len()` pushing the result
of each `encrypt_single`, returning the vector on success. -/
def WE.encrypt (we : WE G1 G2 F KErr) (com : G1) (points values : List F)
    (msg : List Nat) : RunResult (WEError KErr) (List (G2 × List Nat)) :=
  we.encryptIdx com points values msg (List.range points.length) []

/-- A concrete toy KEM over `Nat` for evaluating the theorems: the
encapsulation keystream at `(com, point, value)` starts at byte `point`, and
the decapsulation keystream at witness `w` starts at byte `w`, so a witness
equal to the point reproduces the keystream. -/
def kemToy : KEM Nat Nat Nat Nat where
  encapsulate := fun com point value => Except.ok (com + point + value, fun i => point + i)
  decapsulate := fun w _ => Except.ok (fun i => w + i)

/-- A concrete toy KEM whose operations always fail. -/
def kemFailToy : KEM Nat Nat Nat Nat where
  encapsulate := fun _ _ _ => Except.error 7
  decapsulate := fun _ _ => Except.error 9

/-- Toy orchestrator over `kemToy`. -/
def weToy : WE Nat Nat Nat Nat := ⟨kemToy⟩

/-- Toy orchestrator over `kemFailToy`. -/
def weFailToy : WE Nat Nat Nat Nat := ⟨kemFailToy⟩

section BasicLemmas

lemma fill_length (ks : Nat → Nat) (n : Nat) : (fill ks n).length = n := by
  simp [fill]

lemma fill_getElem (ks : Nat → Nat) (n i : Nat) (h : i < (fill ks n).length) :
    (fill ks n)[i] = ks i % 256 := by
  simp [fill] at h ⊢

lemma xor_cancel_left (a b : Nat) : Nat.xor a (Nat.xor a b) = b := by
  show a ^^^ (a ^^^ b) = b
  rw [← Nat.xor_assoc, Nat.xor_self, Nat.zero_xor]

lemma encrypt_single_ok (we : WE G1 G2 F KErr) (com : G1) (p v : F)
    (m : List Nat) (kct : G2) (ks : Nat → Nat)
    (henc : we.kem.encapsulate com p v = Except.ok (kct, ks)) :
    we.encrypt_single com p v m =
      Except.ok (kct, List.zipWith Nat.xor (fill ks m.length) m) := by
  unfold WE.encrypt_single
  rw [henc]

lemma decrypt_single_ok (we : WE G1 G2 F KErr) (w : G1) (kct : G2)
    (mc : List Nat) (ks : Nat → Nat)
    (hdec : we.kem.decapsulate w kct = Except.ok ks) :
    we.decrypt_single w kct mc =
      Except.ok (List.zipWith Nat.xor (fill ks mc.length) mc) := by
  unfold WE.decrypt_single
  rw [hdec]

end BasicLemmas

/-- C1: round-trip correctness.  If decapsulation with witness `w` of the
key-ciphertext from a matching encapsulation reproduces the keystream bytes,
then `decrypt_single` applied to the output of `encrypt_single` returns
exactly the original message. -/
theorem C1_round_trip (we : WE G1 G2 F KErr) (com : G1) (x v : F) (w : G1)
    (m : List Nat) (kct : G2) (ks ks2 : Nat → Nat)
    (henc : we.kem.encapsulate com x v = Except.ok (kct, ks))
    (hdec : we.kem.decapsulate w kct = Except.ok ks2)
    (hrepro : ∀ i, ks2 i % 256 = ks i % 256) :
    ∃ mct, we.encrypt_single com x v m = Except.ok (kct, mct) ∧
      we.decrypt_single w kct mct = Except.ok m := by
  refine ⟨List.zipWith Nat.xor (fill ks m.length) m,
    encrypt_single_ok we com x v m kct ks henc, ?_⟩
  rw [decrypt_single_ok we w kct _ ks2 hdec]
  congr 1
  have hctlen : (List.zipWith Nat.xor (fill ks m.length) m).length = m.length := by
    simp [fill_length]
  apply List.ext_getElem
  · simp [fill_length, hctlen]
  · intro i h1 h2
    have hi : i < m.length := by simpa [fill_length, hctlen] using h1
    rw [List.getElem_zipWith, List.getElem_zipWith,
      fill_getElem, fill_getElem, hrepro i]
    exact xor_cancel_left (ks i % 256) m[i]

/-- C1 witness: a concrete run of the round trip on the toy KEM. -/
theorem C1_round_trip_witness :
    ∃ mct, weToy.encrypt_single 5 2 3 [104, 105, 33] = Except.ok (10, mct) ∧
      weToy.decrypt_single 2 10 mct = Except.ok [104, 105, 33] :=
  C1_round_trip weToy 5 2 3 2 [104, 105, 33] 10
    (fun i => 2 + i) (fun i => 2 + i) rfl rfl (fun _ => rfl)

/-- C2: length preservation.  A successful `encrypt_single` returns a
message-ciphertext of the plaintext's length, and a successful
`decrypt_single` returns a plaintext of the message-ciphertext's length. -/
theorem C2_length_preservation (we : WE G1 G2 F KErr) (com : G1) (p v : F)
    (w : G1) (kct : G2) (m mc : List Nat) :
    (∀ kct2 mct, we.encrypt_single com p v m = Except.ok (kct2, mct) →
      mct.length = m.length) ∧
    (∀ out, we.decrypt_single w kct mc = Except.ok out →
      out.length = mc.length) := by
  constructor
  · intro kct2 mct h
    unfold WE.encrypt_single at h
    cases henc : we.kem.encapsulate com p v with
    | error e => rw [henc] at h; cases h
    | ok pr =>
        obtain ⟨kc, ks⟩ := pr
        rw [henc] at h
        cases h
        simp [fill_length]
  · intro out h
    unfold WE.decrypt_single at h
    cases hdec : we.kem.decapsulate w kct with
    | error e => rw [hdec] at h; cases h
    | ok ks =>
        rw [hdec] at h
        cases h
        simp [fill_length]

/-- C2 witness: length preservation on concrete runs, including the empty
message on the encryption side. -/
theorem C2_length_preservation_witness :
    ([] : List Nat).length = ([] : List Nat).length ∧
    ([10, 4] : List Nat).length = ([8, 7] : List Nat).length :=
  ⟨(C2_length_preservation weToy 5 2 3 2 10 [] []).1 10 [] rfl,
   (C2_length_preservation weToy 5 2 3 2 10 [9, 6] [8, 7]).2 [10, 4] rfl⟩

/-- C5: error transparency.  `encrypt_single` fails exactly when the KEM's
encapsulate fails, `decrypt_single` exactly when decapsulate fails, and in
each case the error is the underlying KEM error carried unchanged inside the
single `KEMError` variant of `WEError`. -/
theorem C5_error_transparency (we : WE G1 G2 F KErr) (com : G1) (p v : F)
    (w : G1) (kct : G2) (m mc : List Nat) :
    (∀ err, we.encrypt_single com p v m = Except.error err ↔
      ∃ ke, we.kem.encapsulate com p v = Except.error ke ∧
        err = WEError.KEMError ke) ∧
    (∀ err, we.decrypt_single w kct mc = Except.error err ↔
      ∃ ke, we.kem.decapsulate w kct = Except.error ke ∧
        err = WEError.KEMError ke) := by
  constructor
  · intro err
    unfold WE.encrypt_single
    cases henc : we.kem.encapsulate com p v with
    | error e =>
        simp only [henc]
        constructor
        · intro h
          cases h
          exact ⟨e, rfl, rfl⟩
        · rintro ⟨ke, hke, herr⟩
          cases hke
          rw [herr]
    | ok pr =>
        obtain ⟨kc, ks⟩ := pr
        simp [henc]
  · intro err
    unfold WE.decrypt_single
    cases hdec : we.kem.decapsulate w kct with
    | error e =>
        simp only [hdec]
        constructor
        · intro h
          cases h
          exact ⟨e, rfl, rfl⟩
        · rintro ⟨ke, hke, herr⟩
          cases hke
          rw [herr]
    | ok ks =>
        simp [hdec]

/-- C5 witness: concrete failing runs carry the KEM error unchanged in the
wrapping variant. -/
theorem C5_error_transparency_witness :
    weFailToy.encrypt_single 0 1 2 [3] = Except.error (WEError.KEMError 7) ∧
    weFailToy.decrypt_single 0 4 [3] = Except.error (WEError.KEMError 9) :=
  ⟨((C5_error_transparency weFailToy 0 1 2 0 4 [3] [3]).1
      (WEError.KEMError 7)).mpr ⟨7, rfl, rfl⟩,
   ((C5_error_transparency weFailToy 0 1 2 0 4 [3] [3]).2
      (WEError.KEMError 9)).mpr ⟨9, rfl, rfl⟩⟩

/-- C6: keystream-XOR definition.  On success, the message-ciphertext is the
plaintext XORed byte-for-byte with the first `len(message)` bytes of the
encapsulated keystream, and symmetrically the decrypted output is the
message-ciphertext XORed with the first `len(message_ciphertext)` bytes of
the decapsulated keystream. -/
theorem C6_keystream_xor (we : WE G1 G2 F KErr) (com : G1) (p v : F)
    (w : G1) (kct kct2 : G2) (ks ks2 : Nat → Nat) (m mc : List Nat)
    (henc : we.kem.encapsulate com p v = Except.ok (kct, ks))
    (hdec : we.kem.decapsulate w kct2 = Except.ok ks2) :
    (∃ mct, we.encrypt_single com p v m = Except.ok (kct, mct) ∧
      mct.length = m.length ∧
      ∀ i (h1 : i < mct.length) (h2 : i < m.length),
        mct[i] = Nat.xor m[i] (ks i % 256)) ∧
    (∃ out, we.decrypt_single w kct2 mc = Except.ok out ∧
      out.length = mc.length ∧
      ∀ i (h1 : i < out.length) (h2 : i < mc.length),
        out[i] = Nat.xor mc[i] (ks2 i % 256)) := by
  constructor
  · refine ⟨List.zipWith Nat.xor (fill ks m.length) m,
      encrypt_single_ok we com p v m kct ks henc, ?_, ?_⟩
    · simp [fill_length]
    · intro i h1 h2
      rw [List.getElem_zipWith, fill_getElem]
      exact Nat.xor_comm _ _
  · refine ⟨List.zipWith Nat.xor (fill ks2 mc.length) mc,
      decrypt_single_ok we w kct2 mc ks2 hdec, ?_, ?_⟩
    · simp [fill_length]
    · intro i h1 h2
      rw [List.getElem_zipWith, fill_getElem]
      exact Nat.xor_comm _ _

/-- C6 witness: the XOR characterisation evaluated on the toy KEM. -/
theorem C6_keystream_xor_witness :
    (∃ mct, weToy.encrypt_single 5 2 3 [104, 105] = Except.ok (10, mct) ∧
      mct.length = 2 ∧
      ∀ i (h1 : i < mct.length) (h2 : i < ([104, 105] : List Nat).length),
        mct[i] = Nat.xor ([104, 105] : List Nat)[i] ((2 + i) % 256)) ∧
    (∃ out, weToy.decrypt_single 4 10 [9] = Except.ok out ∧
      out.length = 1 ∧
      ∀ i (h1 : i < out.length) (h2 : i < ([9] : List Nat).length),
        out[i] = Nat.xor ([9] : List Nat)[i] ((4 + i) % 256)) :=
  C6_keystream_xor weToy 5 2 3 4 10 10 (fun i => 2 + i) (fun i => 4 + i)
    [104, 105] [9] rfl rfl

/-- C8: purity and determinism.  Each operation is a pure function of its
arguments and the orchestrator's KEM configuration: two orchestrators holding
the same KEM produce identical results on identical arguments. -/
theorem C8_purity (we1 we2 : WE G1 G2 F KErr) (h : we1.kem = we2.kem)
    (com : G1) (p v : F) (w : G1) (kct : G2) (points values : List F)
    (m mc : List Nat) :
    we1.encrypt_single com p v m = we2.encrypt_single com p v m ∧
    we1.decrypt_single w kct mc = we2.decrypt_single w kct mc ∧
    we1.encrypt com points values m = we2.encrypt com points values m := by
  cases we1 with
  | mk kem1 =>
      cases we2 with
      | mk kem2 =>
          cases h
          exact ⟨rfl, rfl, rfl⟩

/-- C8 witness: determinism evaluated on two copies of the toy orchestrator. -/
theorem C8_purity_witness :
    weToy.encrypt_single 5 2 3 [1] = (WE.mk kemToy).encrypt_single 5 2 3 [1] ∧
    weToy.decrypt_single 4 10 [9] = (WE.mk kemToy).decrypt_single 4 10 [9] ∧
    weToy.encrypt 5 [2] [3] [1] = (WE.mk kemToy).encrypt 5 [2] [3] [1] :=
  C8_purity weToy (WE.mk kemToy) rfl 5 2 3 4 10 [2] [3] [1] [9]

section BatchLemmas

variable (we : WE G1 G2 F KErr) (com : G1) (points values : List F) (msg : List Nat)

lemma encStep_eq (i : Nat) (h : i < points.length) (hv : i < values.length) :
    we.encStep com points values msg i =
      match we.encrypt_single com (points.get ⟨i, h⟩) (values.get ⟨i, hv⟩) msg with
      | Except.error e => RunResult.error e
      | Except.ok kc => RunResult.ok kc := by
  unfold WE.encStep
  rw [dif_pos h, dif_pos hv]

lemma encStep_panicked_iff (i : Nat) (h : i < points.length) :
    we.encStep com points values msg i = RunResult.panicked ↔
      values.length ≤ i := by
  unfold WE.encStep
  rw [dif_pos h]
  by_cases hv : i < values.length
  · rw [dif_pos hv]
    cases hs : we.encrypt_single com (points.get ⟨i, h⟩) (values.get ⟨i, hv⟩) msg <;>
      simp <;> omega
  · rw [dif_neg hv]
    simp
    omega

lemma encryptIdx_ok_elim :
    ∀ (is : List Nat) (acc cts : List (G2 × List Nat)),
      we.encryptIdx com points values msg is acc = RunResult.ok cts →
      ∃ kcs, cts = acc ++ kcs ∧ kcs.length = is.length ∧
        ∀ j (hj : j < is.length) (hj' : j < kcs.length),
          RunResult.ok (kcs.get ⟨j, hj'⟩) =
            we.encStep com points values msg (is.get ⟨j, hj⟩)
  | [], acc, cts, h => by
      refine ⟨[], ?_, rfl, ?_⟩
      · simp only [WE.encryptIdx] at h
        cases h
        simp
      · intro j hj
        exact absurd hj (Nat.not_lt_zero j)
  | i :: rest, acc, cts, h => by
      rw [WE.encryptIdx] at h
      cases hstep : we.encStep com points values msg i with
      | panicked => rw [hstep] at h; cases h
      | error e => rw [hstep] at h; cases h
      | ok kc =>
          rw [hstep] at h
          obtain ⟨kcs', hcts, hlen, hspec⟩ :=
            encryptIdx_ok_elim rest (acc ++ [kc]) cts h
          refine ⟨kc :: kcs', by simpa using hcts, by simpa using hlen, ?_⟩
          intro j hj hj'
          cases j with
          | zero => simpa using hstep.symm
          | succ j' =>
              have hj1 : j' < rest.length := by simpa using hj
              have hj2 : j' < kcs'.length := by simpa using hj'
              simpa using hspec j' hj1 hj2

lemma encryptIdx_ok_intro :
    ∀ (is : List Nat) (acc : List (G2 × List Nat)) (f : Nat → G2 × List Nat),
      (∀ j ∈ is, we.encStep com points values msg j = RunResult.ok (f j)) →
      we.encryptIdx com points values msg is acc =
        RunResult.ok (acc ++ is.map f)
  | [], acc, f, _ => by simp [WE.encryptIdx]
  | i :: rest, acc, f, hall => by
      rw [WE.encryptIdx]
      rw [hall i (List.mem_cons_self i rest)]
      show we.encryptIdx com points values msg rest (acc ++ [f i]) =
        RunResult.ok (acc ++ List.map f (i :: rest))
      rw [encryptIdx_ok_intro rest (acc ++ [f i]) f
        (fun j hj => hall j (List.mem_cons_of_mem i hj))]
      simp

lemma encryptIdx_error_iff :
    ∀ (is : List Nat) (acc : List (G2 × List Nat)) (e : WEError KErr),
      we.encryptIdx com points values msg is acc = RunResult.error e ↔
      ∃ j, ∃ hj : j < is.length,
        we.encStep com points values msg (is.get ⟨j, hj⟩) = RunResult.error e ∧
        ∀ k (hk : k < j), ∃ kc,
          we.encStep com points values msg (is.get ⟨k, Nat.lt_trans hk hj⟩) =
            RunResult.ok kc
  | [], acc, e => by
      simp only [WE.encryptIdx]
      constructor
      · intro h; cases h
      · rintro ⟨j, hj, _⟩
        exact absurd hj (Nat.not_lt_zero j)
  | i :: rest, acc, e => by
      rw [WE.encryptIdx]
      cases hstep : we.encStep com points values msg i with
      | panicked =>
          constructor
          · intro h; cases h
          · rintro ⟨j, hj, hje, hprior⟩
            cases j with
            | zero =>
                have hje' : we.encStep com points values msg i = RunResult.error e := hje
                rw [hstep] at hje'; cases hje'
            | succ j' =>
                obtain ⟨kc, hkc⟩ := hprior 0 (Nat.succ_pos j')
                have hkc' : we.encStep com points values msg i = RunResult.ok kc := hkc
                rw [hstep] at hkc'; cases hkc'
      | error e' =>
          constructor
          · intro h
            cases h
            refine ⟨0, Nat.succ_pos rest.length, hstep, ?_⟩
            intro k hk
            exact absurd hk (Nat.not_lt_zero k)
          · rintro ⟨j, hj, hje, hprior⟩
            cases j with
            | zero =>
                have hje' : we.encStep com points values msg i = RunResult.error e := hje
                rw [hstep] at hje'
                cases hje'
                rfl
            | succ j' =>
                obtain ⟨kc, hkc⟩ := hprior 0 (Nat.succ_pos j')
                have hkc' : we.encStep com points values msg i = RunResult.ok kc := hkc
                rw [hstep] at hkc'; cases hkc'
      | ok kc =>
          rw [encryptIdx_error_iff rest (acc ++ [kc]) e]
          constructor
          · rintro ⟨j, hj, hje, hprior⟩
            refine ⟨j + 1, by simpa using Nat.succ_lt_succ hj, by simpa using hje, ?_⟩
            intro k hk
            cases k with
            | zero => exact ⟨kc, by simpa using hstep⟩
            | succ k' =>
                have hk' : k' < j := Nat.lt_of_succ_lt_succ hk
                obtain ⟨kc', hkc'⟩ := hprior k' hk'
                exact ⟨kc', by simpa using hkc'⟩
          · rintro ⟨j, hj, hje, hprior⟩
            cases j with
            | zero =>
                have hje' : we.encStep com points values msg i = RunResult.error e := hje
                rw [hstep] at hje'
                cases hje'
            | succ j' =>
                have hj1 : j' < rest.length := by simpa using hj
                refine ⟨j', hj1, by simpa using hje, ?_⟩
                intro k hk
                obtain ⟨kc', hkc'⟩ := hprior (k + 1) (Nat.succ_lt_succ hk)
                exact ⟨kc', by simpa using hkc'⟩

lemma encryptIdx_ne_panicked :
    ∀ (is : List Nat) (acc : List (G2 × List Nat)),
      (∀ j ∈ is, we.encStep com points values msg j ≠ RunResult.panicked) →
      we.encryptIdx com points values msg is acc ≠ RunResult.panicked
  | [], acc, _ => by
      simp only [WE.encryptIdx]
      intro h; cases h
  | i :: rest, acc, hall => by
      rw [WE.encryptIdx]
      cases hstep : we.encStep com points values msg i with
      | panicked => exact absurd hstep (hall i (List.mem_cons_self i rest))
      | error e => intro h; cases h
      | ok kc =>
          exact encryptIdx_ne_panicked rest (acc ++ [kc])
            (fun j hj => hall j (List.mem_cons_of_mem i hj))

lemma encryptIdx_panicked_intro :
    ∀ (is : List Nat) (acc : List (G2 × List Nat)) (j : Nat) (hj : j < is.length),
      we.encStep com points values msg (is.get ⟨j, hj⟩) = RunResult.panicked →
      (∀ k (hk : k < j), ∃ kc,
        we.encStep com points values msg (is.get ⟨k, Nat.lt_trans hk hj⟩) =
          RunResult.ok kc) →
      we.encryptIdx com points values msg is acc = RunResult.panicked
  | [], _, j, hj, _, _ => absurd hj (Nat.not_lt_zero j)
  | i :: rest, acc, j, hj, hpan, hprior => by
      rw [WE.encryptIdx]
      cases j with
      | zero =>
          rw [show we.encStep com points values msg i = RunResult.panicked from hpan]
      | succ j' =>
          obtain ⟨kc, hkc⟩ := hprior 0 (Nat.succ_pos j')
          simp only [List.get] at hkc
          rw [hkc]
          have hj1 : j' < rest.length := by simpa using hj
          exact encryptIdx_panicked_intro rest (acc ++ [kc]) j' hj1
            (by simpa using hpan)
            (fun k hk => by simpa using hprior (k + 1) (Nat.succ_lt_succ hk))

lemma range_get (n i : Nat) (h : i < (List.range n).length) :
    (List.range n).get ⟨i, h⟩ = i := by
  simp

lemma encStep_error_iff (i : Nat) (h : i < points.length)
    (hv : i < values.length) (e : WEError KErr) :
    we.encStep com points values msg i = RunResult.error e ↔
      we.encrypt_single com (points.get ⟨i, h⟩) (values.get ⟨i, hv⟩) msg =
        Except.error e := by
  rw [encStep_eq we com points values msg i h hv]
  cases hs : we.encrypt_single com (points.get ⟨i, h⟩) (values.get ⟨i, hv⟩) msg <;>
    simp

lemma encStep_ok_iff (i : Nat) (h : i < points.length)
    (hv : i < values.length) (kc : G2 × List Nat) :
    we.encStep com points values msg i = RunResult.ok kc ↔
      we.encrypt_single com (points.get ⟨i, h⟩) (values.get ⟨i, hv⟩) msg =
        Except.ok kc := by
  rw [encStep_eq we com points values msg i h hv]
  cases hs : we.encrypt_single com (points.get ⟨i, h⟩) (values.get ⟨i, hv⟩) msg <;>
    simp

lemma encrypt_single_error (we : WE G1 G2 F KErr) (com : G1) (p v : F)
    (m : List Nat) (ke : KErr)
    (henc : we.kem.encapsulate com p v = Except.error ke) :
    we.encrypt_single com p v m = Except.error (WEError.KEMError ke) := by
  unfold WE.encrypt_single
  rw [henc]

lemma encryptIdx_ok_exists :
    ∀ (is : List Nat) (acc : List (G2 × List Nat)),
      (∀ j ∈ is, ∃ kc, we.encStep com points values msg j = RunResult.ok kc) →
      ∃ kcs, we.encryptIdx com points values msg is acc =
          RunResult.ok (acc ++ kcs) ∧ kcs.length = is.length
  | [], acc, _ => ⟨[], by simp [WE.encryptIdx], rfl⟩
  | i :: rest, acc, hall => by
      obtain ⟨kc, hkc⟩ := hall i (List.mem_cons_self i rest)
      rw [WE.encryptIdx, hkc]
      show ∃ kcs, we.encryptIdx com points values msg rest (acc ++ [kc]) =
          RunResult.ok (acc ++ kcs) ∧ kcs.length = (i :: rest).length
      obtain ⟨kcs', hok, hlen'⟩ := encryptIdx_ok_exists rest (acc ++ [kc])
        (fun j hj => hall j (List.mem_cons_of_mem i hj))
      refine ⟨kc :: kcs', ?_, by simpa using hlen'⟩
      rw [hok]
      simp

end BatchLemmas

/-- C3: batch order preservation.  For equal-length points and values, a
successful `encrypt` returns a sequence of the same length and order as the
points, whose `i`-th entry is the result of `encrypt_single` on the `i`-th
point and value. -/
theorem C3_batch_order (we : WE G1 G2 F KErr) (com : G1)
    (points values : List F) (msg : List Nat) (cts : List (G2 × List Nat))
    (_hlen : points.length = values.length)
    (hok : we.encrypt com points values msg = RunResult.ok cts) :
    cts.length = points.length ∧
    ∀ i (hi : i < points.length) (hv : i < values.length) (hc : i < cts.length),
      Except.ok (cts.get ⟨i, hc⟩) =
        we.encrypt_single com (points.get ⟨i, hi⟩) (values.get ⟨i, hv⟩) msg := by
  obtain ⟨kcs, hcts, hklen, hspec⟩ :=
    encryptIdx_ok_elim we com points values msg (List.range points.length) [] cts hok
  have hkcs : cts = kcs := by simpa using hcts
  subst hkcs
  have hlen' : cts.length = points.length := by simpa using hklen
  refine ⟨hlen', ?_⟩
  intro i hi hv hc
  have hir : i < (List.range points.length).length := by simpa using hi
  have hstep := hspec i hir hc
  rw [range_get points.length i hir] at hstep
  rw [encStep_eq we com points values msg i hi hv] at hstep
  cases hs : we.encrypt_single com (points.get ⟨i, hi⟩) (values.get ⟨i, hv⟩) msg with
  | error e => rw [hs] at hstep; cases hstep
  | ok kc =>
      rw [hs] at hstep
      cases hstep
      rfl

/-- C3 witness: the batch characterisation evaluated on a concrete
two-point batch over the toy KEM. -/
theorem C3_batch_order_witness :
    ([((10 : Nat), [3]), (14, [5])] : List (Nat × List Nat)).length =
      ([2, 4] : List Nat).length ∧
    ∀ i (hi : i < ([2, 4] : List Nat).length)
      (hv : i < ([3, 5] : List Nat).length)
      (hc : i < ([((10 : Nat), [3]), (14, [5])] : List (Nat × List Nat)).length),
      Except.ok (([((10 : Nat), [3]), (14, [5])] :
          List (Nat × List Nat)).get ⟨i, hc⟩) =
        weToy.encrypt_single 5 (([2, 4] : List Nat).get ⟨i, hi⟩)
          (([3, 5] : List Nat).get ⟨i, hv⟩) [1] :=
  C3_batch_order weToy 5 [2, 4] [3, 5] [1] [(10, [3]), (14, [5])] rfl rfl

/-- C4: batch atomicity.  With equal-length inputs, `encrypt` fails on the
first index whose encapsulation fails, returning the wrapped KEM error and no
partial results, and it returns an error exactly when some `encrypt_single`
call, taken in input order, fails. -/
theorem C4_batch_atomicity (we : WE G1 G2 F KErr) (com : G1)
    (points values : List F) (msg : List Nat)
    (hlen : points.length = values.length) :
    (∀ i (hi : i < points.length) (ke : KErr),
      (∀ j (hj : j < i), ∃ r,
        we.kem.encapsulate com (points.get ⟨j, Nat.lt_trans hj hi⟩)
          (values.get ⟨j, hlen ▸ Nat.lt_trans hj hi⟩) = Except.ok r) →
      we.kem.encapsulate com (points.get ⟨i, hi⟩) (values.get ⟨i, hlen ▸ hi⟩) =
        Except.error ke →
      we.encrypt com points values msg =
        RunResult.error (WEError.KEMError ke)) ∧
    (∀ e, we.encrypt com points values msg = RunResult.error e ↔
      ∃ i, ∃ hi : i < points.length,
        we.encrypt_single com (points.get ⟨i, hi⟩) (values.get ⟨i, hlen ▸ hi⟩)
          msg = Except.error e ∧
        ∀ j (hj : j < i), ∃ r,
          we.encrypt_single com (points.get ⟨j, Nat.lt_trans hj hi⟩)
            (values.get ⟨j, hlen ▸ Nat.lt_trans hj hi⟩) msg = Except.ok r) := by
  have hiff : ∀ e, we.encrypt com points values msg = RunResult.error e ↔
      ∃ i, ∃ hi : i < points.length,
        we.encrypt_single com (points.get ⟨i, hi⟩) (values.get ⟨i, hlen ▸ hi⟩)
          msg = Except.error e ∧
        ∀ j (hj : j < i), ∃ r,
          we.encrypt_single com (points.get ⟨j, Nat.lt_trans hj hi⟩)
            (values.get ⟨j, hlen ▸ Nat.lt_trans hj hi⟩) msg = Except.ok r := by
    intro e
    unfold WE.encrypt
    rw [encryptIdx_error_iff]
    constructor
    · rintro ⟨j, hj, hje, hprior⟩
      have hjp : j < points.length := by simpa using hj
      have hjv : j < values.length := hlen ▸ hjp
      rw [range_get points.length j hj] at hje
      rw [encStep_error_iff we com points values msg j hjp hjv e] at hje
      refine ⟨j, hjp, hje, ?_⟩
      intro k hk
      obtain ⟨kc, hkc⟩ := hprior k hk
      have hkp : k < points.length := Nat.lt_trans hk hjp
      rw [range_get] at hkc
      rw [encStep_ok_iff we com points values msg k hkp (hlen ▸ hkp) kc] at hkc
      exact ⟨kc, hkc⟩
    · rintro ⟨i, hi, hie, hprior⟩
      have hir : i < (List.range points.length).length := by simpa using hi
      refine ⟨i, hir, ?_, ?_⟩
      · rw [range_get points.length i hir]
        exact (encStep_error_iff we com points values msg i hi (hlen ▸ hi) e).mpr
          hie
      · intro k hk
        obtain ⟨r, hr⟩ := hprior k hk
        have hkp : k < points.length := Nat.lt_trans hk hi
        refine ⟨r, ?_⟩
        rw [range_get]
        exact (encStep_ok_iff we com points values msg k hkp (hlen ▸ hkp) r).mpr
          hr
  refine ⟨?_, hiff⟩
  intro i hi ke hprior henc
  apply (hiff (WEError.KEMError ke)).mpr
  refine ⟨i, hi, encrypt_single_error we com _ _ msg ke henc, ?_⟩
  intro j hj
  obtain ⟨r, hr⟩ := hprior j hj
  obtain ⟨kct, ks⟩ := r
  exact ⟨(kct, List.zipWith Nat.xor (fill ks msg.length) msg),
    encrypt_single_ok we com _ _ msg kct ks hr⟩

/-- C4 witness: a failing encapsulation at index 0 aborts the whole batch
with the wrapped KEM error. -/
theorem C4_batch_atomicity_witness :
    weFailToy.encrypt 0 [1] [2] [5] = RunResult.error (WEError.KEMError 7) :=
  (C4_batch_atomicity weFailToy 0 [1] [2] [5] rfl).1 0 (by decide) 7
    (fun j hj => absurd hj (Nat.not_lt_zero j)) rfl

/-- C9: in-bounds batching.  Under the equal-length precondition every
element access of the loop is in bounds: `encrypt` never reaches the
out-of-bounds (panic) branch. -/
theorem C9_in_bounds (we : WE G1 G2 F KErr) (com : G1)
    (points values : List F) (msg : List Nat)
    (hlen : points.length = values.length) :
    we.encrypt com points values msg ≠ RunResult.panicked := by
  unfold WE.encrypt
  apply encryptIdx_ne_panicked
  intro j hj h
  have hjp : j < points.length := List.mem_range.mp hj
  rw [encStep_panicked_iff we com points values msg j hjp] at h
  omega

/-- C9 witness: a concrete equal-length batch does not panic. -/
theorem C9_in_bounds_witness :
    weToy.encrypt 5 [2] [3] [1] ≠ RunResult.panicked :=
  C9_in_bounds weToy 5 [2] [3] [1] rfl

/-- C10 counterexample: with a KEM whose encapsulation fails, a batch with
`len(values) > len(points)` does not succeed — the loop propagates the KEM
error — so the claim's unconditional "it succeeds" is false at this input. -/
theorem C10_counterexample :
    ([2, 3] : List Nat).length > ([1] : List Nat).length ∧
    ¬ ∃ cts, weFailToy.encrypt 0 [1] [2, 3] [5] = RunResult.ok cts := by
  refine ⟨by decide, ?_⟩
  rintro ⟨cts, h⟩
  have he : weFailToy.encrypt 0 [1] [2, 3] [5] =
      RunResult.error (WEError.KEMError 7) := rfl
  rw [he] at h
  cases h

/-- C10 (amended): `encrypt` iterates over `0..len(points)` only.  When
`len(values) > len(points)` and the `len(points)` encapsulations succeed, it
succeeds, silently ignoring the extra values and returning exactly
`len(points)` pairs; when `len(values) < len(points)` and the first
`len(values)` encapsulations succeed, it performs an out-of-bounds index into
values and panics rather than returning a length-mismatch error. -/
theorem C10_unequal_lengths (we : WE G1 G2 F KErr) (com : G1)
    (points values : List F) (msg : List Nat) :
    (∀ hgt : points.length < values.length,
      (∀ i (hi : i < points.length), ∃ r,
        we.kem.encapsulate com (points.get ⟨i, hi⟩)
          (values.get ⟨i, by omega⟩) = Except.ok r) →
      ∃ cts, we.encrypt com points values msg = RunResult.ok cts ∧
        cts.length = points.length) ∧
    (∀ hlt : values.length < points.length,
      (∀ i (hi : i < values.length), ∃ r,
        we.kem.encapsulate com (points.get ⟨i, by omega⟩)
          (values.get ⟨i, hi⟩) = Except.ok r) →
      we.encrypt com points values msg = RunResult.panicked) := by
  constructor
  · intro hgt hall
    have hsteps : ∀ j ∈ List.range points.length, ∃ kc,
        we.encStep com points values msg j = RunResult.ok kc := by
      intro j hj
      have hjp : j < points.length := List.mem_range.mp hj
      have hjv : j < values.length := Nat.lt_trans hjp hgt
      obtain ⟨r, hr⟩ := hall j hjp
      obtain ⟨kct, ks⟩ := r
      refine ⟨(kct, List.zipWith Nat.xor (fill ks msg.length) msg), ?_⟩
      rw [encStep_ok_iff we com points values msg j hjp hjv]
      exact encrypt_single_ok we com _ _ msg kct ks hr
    obtain ⟨kcs, hok, hklen⟩ := encryptIdx_ok_exists we com points values msg
      (List.range points.length) [] hsteps
    exact ⟨kcs, by simpa [WE.encrypt] using hok, by simpa using hklen⟩
  · intro hlt hall
    unfold WE.encrypt
    have hjr : values.length < (List.range points.length).length := by
      simpa using hlt
    apply encryptIdx_panicked_intro we com points values msg
      (List.range points.length) [] values.length hjr
    · rw [range_get points.length values.length hjr]
      rw [encStep_panicked_iff we com points values msg values.length hlt]
    · intro k hk
      have hkv : k < values.length := hk
      have hkp : k < points.length := Nat.lt_trans hkv hlt
      obtain ⟨r, hr⟩ := hall k hkv
      obtain ⟨kct, ks⟩ := r
      refine ⟨(kct, List.zipWith Nat.xor (fill ks msg.length) msg), ?_⟩
      rw [range_get]
      rw [encStep_ok_iff we com points values msg k hkp hkv]
      exact encrypt_single_ok we com _ _ msg kct ks hr

/-- C10 witness: over the toy KEM, a longer values list is silently ignored
and a shorter values list makes the batch panic. -/
theorem C10_unequal_lengths_witness :
    (∃ cts, weToy.encrypt 5 [2] [3, 9] [1] = RunResult.ok cts ∧
      cts.length = ([2] : List Nat).length) ∧
    weToy.encrypt 5 [2, 4] [3] [1] = RunResult.panicked :=
  ⟨(C10_unequal_lengths weToy 5 [2] [3, 9] [1]).1 (by decide)
      (fun i hi => match i, hi with
        | 0, _ => ⟨(10, fun k => 2 + k), rfl⟩
        | i + 1, hi => absurd (Nat.lt_of_succ_lt_succ hi) (Nat.not_lt_zero i)),
   (C10_unequal_lengths weToy 5 [2, 4] [3] [1]).2 (by decide)
      (fun i hi => match i, hi with
        | 0, _ => ⟨(10, fun k => 2 + k), rfl⟩
        | i + 1, hi => absurd (Nat.lt_of_succ_lt_succ hi) (Nat.not_lt_zero i))⟩

end Keaki
